import Mathlib

/-!
# Two-view kernel, normalized-solver adapter, five-point solver, L2 metrics
and decorated matches

A shallow embedding of

* `multiview/two_view_kernel.hpp` (`Kernel`, `NormalizedSolver`),
* `multiview/solver_essential_five_point.hpp` (`FivePointsRelativePose`),
* `matching/metric.hpp` (`L2_Simple`, `L2_Vectorized`, `optim_ss2::l2_sse`),
* `matching/indMatchDecoratorXY.hpp` (`IndMatchDecorator`),

together with the properties of these functions.

Conventions.

* A `Mat` is a dense matrix stored column by column, as in the point sets of
  the library ("one point per column").
* A C++ function writing through a `vector<Model> *models` parameter becomes a
  function from the list on entry to the list on exit.
* Assertions are taken as enabled (no `NDEBUG`).  A call that trips an `assert`
  does not return a list: it yields `none`.  A call that returns normally yields
  `some` of the final list, also when no model was appended.
* Template parameters (`SolverArg`, `ErrorArg`, `UnnormalizerArg`, `ModelArg`)
  become ordinary parameters.
* A sequence read through an iterator or a pointer is a list; a read past its
  end has no defined result, `none`.
* Arithmetic is exact: the accumulator of a metric is a commutative monoid with
  a multiplication, and the coordinate type of a decorated match is linearly
  ordered.  Rounding and `NaN` are outside the embedding.
* The five-point solver works over the real numbers.  Its list of real roots is
  defined by what it contains, not by a root-finding algorithm, and is therefore
  not computable.
-/

set_option autoImplicit false

namespace aliceVision

/-! ## Matrices -/

/-- A matrix with `rows` rows, stored as the list of its columns.  The type
`Mat` of `numeric.h` is an Eigen dynamic matrix of `double`; the scalar type is
left generic here. -/
structure Mat (α : Type) where
  /-- Number of rows, as returned by `rows()`. -/
  rows : Nat
  /-- The columns, first to last. -/
  data : List (List α)
deriving DecidableEq, Repr

/-- The number of columns, `A.cols()`. -/
def Mat.cols {α : Type} (A : Mat α) : Nat := A.data.length

/-- The column `A.col(i)`.  An index past the last column is outside the
contract of `col`; the embedding returns the empty column there. -/
def Mat.col {α : Type} (A : Mat α) (i : Nat) : List α := A.data.getD i []

/-- Modelled from the spec: `ExtractColumns` is declared in `numeric/numeric.h`,
which is not among the sources.  The spec says that `Fit` "extracts the
sub-point-sets at the given indices (preserving order)": the result has the rows
of `A` and one column per index, column `j` of the result being column
`columns[j]` of `A`. -/
def ExtractColumns {α : Type} (A : Mat α) (columns : List Nat) : Mat α :=
  { rows := A.rows, data := columns.map (fun i => A.col i) }

/-! ## The solver concept and the kernel -/

/-- The static interface a `SolverArg` template argument offers:
the two enumerators and `Solve(x1, x2, &models)`. -/
structure Solver (α M : Type) where
  /-- The enumerator `MINIMUM_SAMPLES`. -/
  MINIMUM_SAMPLES : Nat
  /-- The enumerator `MAX_MODELS`. -/
  MAX_MODELS : Nat
  /-- The function `static void Solve(const Mat &x1, const Mat &x2, vector<Model> *models)`:
  maps the model list on entry to the model list on exit, `none` when an
  assertion fails. -/
  Solve : Mat α → Mat α → List M → Option (List M)

/-- The static interface of an `ErrorArg` template argument:
`Error(model, x1.col(i), x2.col(i))`, with result type `D` (`double`). -/
structure ErrorFunctor (α M D : Type) where
  /-- The function `static double Error(const Model &, const Vec &, const Vec &)`. -/
  Error : M → List α → List α → D

/-- The data members of `Kernel`: the two point sets `x1_` and `x2_`. -/
structure Kernel (α : Type) where
  /-- Left points, `x1_`. -/
  x1 : Mat α
  /-- Right points, `x2_`. -/
  x2 : Mat α
deriving DecidableEq, Repr

namespace Kernel

variable {α M D : Type}

/-- The enumerator `Kernel::MINIMUM_SAMPLES = Solver::MINIMUM_SAMPLES`. -/
def MINIMUM_SAMPLES (S : Solver α M) : Nat := S.MINIMUM_SAMPLES

/-- The enumerator `Kernel::MAX_MODELS = Solver::MAX_MODELS`. -/
def MAX_MODELS (S : Solver α M) : Nat := S.MAX_MODELS

/-- The method `Kernel::Fit(samples, models)`: extract the sampled columns of
both point sets and call the solver on them. -/
def Fit (S : Solver α M) (k : Kernel α) (samples : List Nat) (models : List M) :
    Option (List M) :=
  let x1 := ExtractColumns k.x1 samples
  let x2 := ExtractColumns k.x2 samples
  S.Solve x1 x2 models

/-- The method `Kernel::Error(sample, model)`. -/
def Error (E : ErrorFunctor α M D) (k : Kernel α) (sample : Nat) (model : M) : D :=
  E.Error model (k.x1.col sample) (k.x2.col sample)

/-- The method `Kernel::NumSamples()`. -/
def NumSamples (k : Kernel α) : Nat := k.x1.cols

/-- The static method `Kernel::Solve(x1, x2, models)`. -/
def Solve (S : Solver α M) (x1 x2 : Mat α) (models : List M) : Option (List M) :=
  S.Solve x1 x2 models

end Kernel

/-! ## The normalized-solver adapter -/

namespace NormalizedSolver

variable {α M T : Type}

/-- The loop `for (int i = 0; i < models->size(); ++i) Unnormalize(T1, T2, &(*models)[i]);`
started at index `i`, with `fuel` bounding the remaining iterations.  The
counter is an `int` compared with a `size_t`; the list is taken to hold fewer
than `2^31` models, so the counter does not wrap. -/
def unnormalizeLoop (Unnormalize : T → T → M → M) (T1 T2 : T) :
    Nat → Nat → List M → List M
  | 0, _, models => models
  | fuel + 1, i, models =>
    if h : i < models.length then
      unnormalizeLoop Unnormalize T1 T2 fuel (i + 1)
        (models.set i (Unnormalize T1 T2 (models.get ⟨i, h⟩)))
    else models

/-- The function `NormalizedSolver::Solve(x1, x2, models)`.  `NormalizePoints`
(declared in `conditioning.hpp`, not among the sources) is a parameter: it
returns the normalized points and the normalization transform.  `Unnormalize`
is the static function of `UnnormalizerArg`, which rewrites one model. -/
def Solve (NormalizePoints : Mat α → Mat α × T) (S : Solver α M)
    (Unnormalize : T → T → M → M) (x1 x2 : Mat α) (models : List M) :
    Option (List M) :=
  if 2 ≠ x1.rows then none                       -- assert(2 == x1.rows())
  else if ¬ S.MINIMUM_SAMPLES ≤ x1.cols then none -- assert(MINIMUM_SAMPLES <= x1.cols())
  else if x1.rows ≠ x2.rows then none             -- assert(x1.rows() == x2.rows())
  else if x1.cols ≠ x2.cols then none             -- assert(x1.cols() == x2.cols())
  else
    let n1 := NormalizePoints x1
    let n2 := NormalizePoints x2
    match S.Solve n1.1 n2.1 models with
    | none => none
    | some models => some (unnormalizeLoop Unnormalize n1.2 n2.2 models.length 0 models)

end NormalizedSolver

/-- The class `NormalizedSolver<SolverArg, UnnormalizerArg, ModelArg>` seen as a
solver: its two enumerators and its `Solve`. -/
def NormalizedSolver {α M T : Type} (NormalizePoints : Mat α → Mat α × T) (S : Solver α M)
    (Unnormalize : T → T → M → M) : Solver α M :=
  { MINIMUM_SAMPLES := S.MINIMUM_SAMPLES
    MAX_MODELS := S.MAX_MODELS
    Solve := NormalizedSolver.Solve NormalizePoints S Unnormalize }

/-! ## The five-point relative-pose solver -/

/-- Value at `z` of the polynomial whose coefficients are `cs`, constant term
first (Horner's rule). -/
def evalPoly {R : Type} [Zero R] [Add R] [Mul R] : List R → R → R
  | [], _ => 0
  | c :: cs, z => c + z * evalPoly cs z

/-- Modelled from the spec: the header `solver_essential_five_point.hpp` only
declares `FivePointsRelativePose`; its body is not among the sources.  These are
the two stages that the spec describes as computations on the points, over the
real numbers (`double` in the library); no property of them is assumed.

* `polynomial x1 x2`: steps 1 to 4, "reducing the system to a univariate
  degree-10 polynomial in z": its 11 coefficients, constant term first;
* `candidate x1 x2 z`: step 5, "for each real root, back-substitute to recover x
  and y, form the candidate essential matrix". -/
structure FivePointStages (Mat3 : Type) where
  /-- Steps 1 to 4: the 11 coefficients of the polynomial in `z`. -/
  polynomial : Mat ℝ → Mat ℝ → { cs : List ℝ // cs.length = 11 }
  /-- Step 5: the essential matrix recovered from one real root. -/
  candidate : Mat ℝ → Mat ℝ → ℝ → Mat3

open Classical in
/-- Modelled from the spec: "find its real roots (root-finding algorithm is a
free implementation choice ...) but must return all real roots, not just one".
The result lists the real numbers at which the polynomial with coefficients `cs`
vanishes, each once, in an order that is left open.  A polynomial whose
coefficients are all zero vanishes everywhere and has no such list; for it the
result is empty, the spec saying of degenerate input that the solver "simply may
return zero models". -/
noncomputable def realRoots (cs : List ℝ) : List ℝ :=
  if h : {z : ℝ | evalPoly cs z = 0}.Finite then h.toFinset.toList else []

/-- Modelled from the spec: `FivePointsRelativePose(x1, x2, &E)`, whose body is
not among the sources.  "For each real root, back-substitute to recover x and y,
form the candidate essential matrix, and append it to the output list." -/
noncomputable def FivePointsRelativePose {Mat3 : Type} (P : FivePointStages Mat3)
    (x1 x2 : Mat ℝ) (E : List Mat3) : List Mat3 :=
  E ++ (realRoots (P.polynomial x1 x2).val).map (P.candidate x1 x2)

/-! ## The squared Euclidean distance -/

namespace L2_Simple

variable {T A : Type} [Zero A] [Add A] [Mul A]

/-- The loop of `L2_Simple::operator()` with `n` iterations left, `a` and `b`
the elements the two iterators have not read yet and `result` the accumulator.
`sub x y` is the expression `*a - *b` converted to `ResultType`.  Reading past
the end of a sequence has no defined result: `none`. -/
def loop (sub : T → T → A) : Nat → List T → List T → A → Option A
  | 0, _, _, result => some result
  | n + 1, x :: a, y :: b, result =>
    let diff := sub x y
    loop sub n a b (result + diff * diff)
  | _ + 1, _, _, _ => none

/-- The call `L2_Simple<T>()(a, b, size)`: `result` starts as `ResultType()`. -/
def call (sub : T → T → A) (a b : List T) (size : Nat) : Option A :=
  loop sub size a b 0

end L2_Simple

namespace L2_Vectorized

variable {T A : Type} [Zero A] [Add A] [Mul A]

/-- The loop `while (a < lastgroup)` of the generic `L2_Vectorized::operator()`.
Both iterators advance together, so one offset `pos` from the start stands for
`a` and `b`; `lastgroup` is `last - 3`, an offset that is negative when
`size < 3`.  The loop returns the offset and the accumulator it exits with.
Reading past the end of a sequence has no defined result (`none`), and neither
has running out of `fuel`. -/
def mainLoop (sub : T → T → A) (a b : List T) (lastgroup : Int) :
    Nat → Nat → A → Option (Nat × A)
  | 0, pos, result => if (pos : Int) < lastgroup then none else some (pos, result)
  | fuel + 1, pos, result =>
    if (pos : Int) < lastgroup then
      match a[pos]?, a[pos + 1]?, a[pos + 2]?, a[pos + 3]?,
          b[pos]?, b[pos + 1]?, b[pos + 2]?, b[pos + 3]? with
      | some a0, some a1, some a2, some a3, some b0, some b1, some b2, some b3 =>
        let diff0 := sub a0 b0
        let diff1 := sub a1 b1
        let diff2 := sub a2 b2
        let diff3 := sub a3 b3
        mainLoop sub a b lastgroup fuel (pos + 4)
          (result + (diff0 * diff0 + diff1 * diff1 + diff2 * diff2 + diff3 * diff3))
      | _, _, _, _, _, _, _, _ => none
    else some (pos, result)

/-- The loop `while (a < last)` of the generic `L2_Vectorized::operator()`, which
handles the last 0 to 3 elements; `last` is the offset `size`. -/
def tailLoop (sub : T → T → A) (a b : List T) (last : Nat) : Nat → Nat → A → Option A
  | 0, pos, result => if pos < last then none else some result
  | fuel + 1, pos, result =>
    if pos < last then
      match a[pos]?, b[pos]? with
      | some x, some y =>
        let diff0 := sub x y
        tailLoop sub a b last fuel (pos + 1) (result + diff0 * diff0)
      | _, _ => none
    else some result

/-- The call `L2_Vectorized<T>()(a, b, size)` of the generic template.  Each
loop gets `size` units of fuel, more than the iterations it can make. -/
def call (sub : T → T → A) (a b : List T) (size : Nat) : Option A :=
  let last : Nat := size
  let lastgroup : Int := (last : Int) - 3
  match mainLoop sub a b lastgroup size 0 0 with
  | none => none
  | some (pos, result) => tailLoop sub a b last size pos result

end L2_Vectorized

namespace optim_ss2

variable {A : Type} [Zero A] [Add A] [Mul A] [Sub A]

/-- The intrinsic `_mm_load_ps(p + i)`: the four consecutive elements at offsets
`i` to `i + 3`, `none` when one of them is past the end.  The alignment the
intrinsic requires is not modelled. -/
def load (b : List A) (i : Nat) : Option (A × A × A × A) :=
  match b[i]?, b[i + 1]?, b[i + 2]?, b[i + 3]? with
  | some x0, some x1, some x2, some x3 => some (x0, x1, x2, x3)
  | _, _, _, _ => none

/-- The intrinsic `_mm_sub_ps`: lane-wise difference. -/
def sub_ps (x y : A × A × A × A) : A × A × A × A :=
  (x.1 - y.1, x.2.1 - y.2.1, x.2.2.1 - y.2.2.1, x.2.2.2 - y.2.2.2)

/-- The intrinsic `_mm_mul_ps`: lane-wise product. -/
def mul_ps (x y : A × A × A × A) : A × A × A × A :=
  (x.1 * y.1, x.2.1 * y.2.1, x.2.2.1 * y.2.2.1, x.2.2.2 * y.2.2.2)

/-- The intrinsic `_mm_add_ps`: lane-wise sum. -/
def add_ps (x y : A × A × A × A) : A × A × A × A :=
  (x.1 + y.1, x.2.1 + y.2.1, x.2.2.1 + y.2.2.1, x.2.2.2 + y.2.2.2)

/-- The loop `for (int i = 0; i < size; i += 4)` of `l2_sse`, from counter `i`
with the register `cumSum`. -/
def sseLoop (b1 b2 : List A) (size : Nat) :
    Nat → Nat → A × A × A × A → Option (A × A × A × A)
  | 0, i, cumSum => if i < size then none else some cumSum
  | fuel + 1, i, cumSum =>
    if i < size then
      match load b1 i, load b2 i with
      | some srcA, some srcB =>
        let temp := sub_ps srcA srcB
        let temp := mul_ps temp temp
        sseLoop b1 b2 size fuel (i + 4) (add_ps cumSum temp)
      | _, _ => none
    else some cumSum

/-- The function `optim_ss2::l2_sse(b1, b2, size)`, for a size `0 <= size < 2^31`.
When `size` is no multiple of 4 the function logs a warning and returns `0.0f`. -/
def l2_sse (b1 b2 : List A) (size : Nat) : Option A :=
  if size % 4 = 0 then
    match sseLoop b1 b2 size size 0 (0, 0, 0, 0) with
    | none => none
    | some res => some (res.1 + res.2.1 + res.2.2.1 + res.2.2.2)
  else some 0

end optim_ss2

/-- The call `L2_Vectorized<float>()(a, b, size)` of the specialisation for
`float`, which returns `optim_ss2::l2_sse(a, b, size)`. -/
def L2_Vectorized.callFloat {A : Type} [Zero A] [Add A] [Mul A] [Sub A] (a b : List A)
    (size : Nat) : Option A :=
  optim_ss2.l2_sse a b size

/-! ## Matches decorated with their coordinates -/

/-- The type `IndMatch` of `matching/indMatch.hpp` (not among the sources), as far
as `indMatchDecoratorXY.hpp` uses it: the indices `_i` and `_j` of the two
matched features. -/
structure IndMatch where
  /-- Index of the feature in the left image. -/
  _i : Nat
  /-- Index of the feature in the right image. -/
  _j : Nat
deriving DecidableEq, Repr

/-- The struct `IndMatchDecorator<T>::IndMatchDecoratorStruct`: a match with the
coordinates of its two features. -/
structure IndMatchDecoratorStruct (T : Type) where
  /-- Abscissa of the left feature. -/
  x1 : T
  /-- Ordinate of the left feature. -/
  y1 : T
  /-- Abscissa of the right feature. -/
  x2 : T
  /-- Ordinate of the right feature. -/
  y2 : T
  /-- The decorated match. -/
  index : IndMatch
deriving DecidableEq, Repr

namespace IndMatchDecoratorStruct

variable {T : Type} [LinearOrder T]

/-- The comparison `operator==` of decorated matches. -/
def operatorEq (m1 m2 : IndMatchDecoratorStruct T) : Bool :=
  decide (m1.x1 = m2.x1) && decide (m1.y1 = m2.y1)
    && decide (m1.x2 = m2.x2) && decide (m1.y2 = m2.y2)

/-- The comparison `operator<` of decorated matches, statement by statement. -/
def operatorLess (m1 m2 : IndMatchDecoratorStruct T) : Bool :=
  if operatorEq m1 m2 then false
  else if m1.x1 < m2.x1 then decide (m1.y1 < m2.y1)
  else if m1.x1 > m2.x1 then decide (m1.y1 < m2.y1)
  else decide (m1.x1 < m2.x1)

/-- The lexicographical ordering of the coordinate tuples `(x1, y1, x2, y2)`,
as the documentation of `operator<` words it: `x1` is compared first, then `y1`
when the `x1` are equal, then `x2`, then `y2`. -/
def lexicographicalLess (m1 m2 : IndMatchDecoratorStruct T) : Bool :=
  decide (m1.x1 < m2.x1 ∨ (m1.x1 = m2.x1 ∧ (m1.y1 < m2.y1 ∨ (m1.y1 = m2.y1 ∧
    (m1.x2 < m2.x2 ∨ (m1.x2 = m2.x2 ∧ m1.y2 < m2.y2))))))

end IndMatchDecoratorStruct

/-! ### The container `std::set`

`getDeduplicated` builds a `std::set` from a range.  The container is modelled
after the red-black tree of libstdc++.  A tree is represented by the sequence of
its elements in tree order; which node is the root of each subtree is left to a
parameter `shape`, so that every balancing scheme is covered. -/

namespace StdSet

variable {X : Type}

/-- The descent of `_M_get_insert_unique_pos` for the key `v` through the
subtree holding the elements at positions `lo` to `hi - 1`: at the root of the
subtree, position `lo + shape lo hi % (hi - lo)`, go left when `v < root` and
right otherwise.  The result is the position at which `v` would be linked. -/
def findPos (less : X → X → Bool) (shape : Nat → Nat → Nat) (l : List X) (v : X) :
    Nat → Nat → Nat → Nat
  | 0, lo, _ => lo
  | fuel + 1, lo, hi =>
    if lo < hi then
      let m := lo + shape lo hi % (hi - lo)
      match l[m]? with
      | some x => if less v x then findPos less shape l v fuel lo m
                  else findPos less shape l v fuel (m + 1) hi
      | none => lo
    else lo

/-- The function `_M_get_insert_unique_pos` followed by the insertion: after the
descent, `v` is linked at the position found when there is no element before
that position or when the element `j` just before it satisfies `j < v`;
otherwise the set is left as it is. -/
def insertUniquePos (less : X → X → Bool) (shape : Nat → Nat → Nat) (l : List X) (v : X) :
    List X :=
  let k := findPos less shape l v (l.length + 1) 0 l.length
  match (l.take k).getLast? with
  | none => l.take k ++ v :: l.drop k
  | some j => if less j v then l.take k ++ v :: l.drop k else l

/-- The insertion with the hint `end()` that the range constructor performs for
each element: when the set is not empty and its last element `r` satisfies
`r < v`, `v` is linked after `r`; otherwise `_M_get_insert_unique_pos` decides. -/
def insertUnique (less : X → X → Bool) (shape : Nat → Nat → Nat) (l : List X) (v : X) :
    List X :=
  match l.getLast? with
  | some r => if less r v then l ++ [v] else insertUniquePos less shape l v
  | none => insertUniquePos less shape l v

/-- The range constructor `std::set<X>(first, last)`, continued from the set `l`
after `step` insertions: the elements of the range are inserted first to last.
`shape step` is the shape of the tree at that step. -/
def insertRange (less : X → X → Bool) (shape : Nat → Nat → Nat → Nat) :
    Nat → List X → List X → List X
  | _, l, [] => l
  | step, l, v :: rest =>
    insertRange less shape (step + 1) (insertUnique less (shape step) l v) rest

/-- The set built from a range, as the sequence `begin()` to `end()`. -/
def ofRange (less : X → X → Bool) (shape : Nat → Nat → Nat → Nat) (range : List X) : List X :=
  insertRange less shape 0 [] range

end StdSet

/-- The data members of `IndMatchDecorator<T>`. -/
structure IndMatchDecorator (T : Type) where
  /-- The matches the decorator was built from. -/
  _vec_matches : List IndMatch
  /-- The matches with their coordinates. -/
  _vecDecoredMatches : List (IndMatchDecoratorStruct T)
deriving DecidableEq, Repr

namespace IndMatchDecorator

variable {T : Type}

/-- The loop of the constructors: each match is decorated with the coordinates
of the features it points to.  A feature set is the list of its `(x, y)` pairs,
which covers the three constructors.  An index past the end of a feature set
has no defined result: `none`. -/
def decorate (leftFeat rightFeat : List (T × T)) :
    List IndMatch → Option (List (IndMatchDecoratorStruct T))
  | [] => some []
  | m :: rest =>
    match leftFeat[m._i]?, rightFeat[m._j]?, decorate leftFeat rightFeat rest with
    | some l, some r, some ds =>
      some ({ x1 := l.1, y1 := l.2, x2 := r.1, y2 := r.2, index := m } :: ds)
    | _, _, _ => none

/-- The constructor `IndMatchDecorator(vec_matches, leftFeat, rightFeat)`. -/
def create (vec_matches : List IndMatch) (leftFeat rightFeat : List (T × T)) :
    Option (IndMatchDecorator T) :=
  match decorate leftFeat rightFeat vec_matches with
  | some ds => some { _vec_matches := vec_matches, _vecDecoredMatches := ds }
  | none => none

/-- The method `getDeduplicated(vec_matches)`.  It returns the value of
`sizeBefore != vec_matches.size()` as a `size_t`, the decorator after the call
and the vector `vec_matches` after the call, which is resized and then
overwritten in full whatever it held before. -/
def getDeduplicated [LinearOrder T] (shape : Nat → Nat → Nat → Nat) (self : IndMatchDecorator T)
    (_vec_matches : List IndMatch) : Nat × IndMatchDecorator T × List IndMatch :=
  let sizeBefore := self._vecDecoredMatches.length
  let set_deduplicated :=
    StdSet.ofRange IndMatchDecoratorStruct.operatorLess shape self._vecDecoredMatches
  let decored := set_deduplicated
  let vec_matches := decored.map (fun d => d.index)
  (if sizeBefore ≠ vec_matches.length then 1 else 0,
    { self with _vecDecoredMatches := decored }, vec_matches)

end IndMatchDecorator

/-! ## A small instance: translations of the plane

Points have integer coordinates, a model is a translation vector and the
normalization moves the first point of a set to the origin. -/

namespace Demo

/-- A raw solver for translations: it appends the vector from the first point
of `x1` to the first point of `x2`, and appends nothing when there is no such
pair of points. -/
def translationSolver : Solver Int (Int × Int) :=
  { MINIMUM_SAMPLES := 1
    MAX_MODELS := 1
    Solve := fun x1 x2 models =>
      match x1.data, x2.data with
      | [a0, a1] :: _, [b0, b1] :: _ => some (models ++ [(b0 - a0, b1 - a1)])
      | _, _ => some models }

/-- A normalization: subtract the first point from every point; the transform
is that first point. -/
def centerOnFirst (x : Mat Int) : Mat Int × (Int × Int) :=
  match x.data with
  | [c0, c1] :: _ =>
    ({ rows := x.rows, data := x.data.map (fun p => List.zipWith (fun u c => u - c) p [c0, c1]) },
      (c0, c1))
  | _ => (x, (0, 0))

/-- The matching un-normalization of a translation: add the difference of the
two centres. -/
def unnormalizeTranslation (T1 T2 : Int × Int) (m : Int × Int) : Int × Int :=
  (m.1 + T2.1 - T1.1, m.2 + T2.2 - T1.2)

/-- Squared distance between the translated left point and the right point. -/
def translationError : ErrorFunctor Int (Int × Int) Int :=
  { Error := fun m p q =>
      match p, q with
      | [p0, p1], [q0, q1] => (p0 + m.1 - q0) * (p0 + m.1 - q0) + (p1 + m.2 - q1) * (p1 + m.2 - q1)
      | _, _ => 0 }

/-- Three correspondences, the right points being the left ones moved by (10, 20). -/
def kernel : Kernel Int :=
  { x1 := { rows := 2, data := [[1, 1], [2, 5], [4, 3]] }
    x2 := { rows := 2, data := [[11, 21], [12, 25], [14, 23]] } }

/-- Five points of the first image, one per column. -/
def points1 : Mat ℝ :=
  { rows := 2, data := [[0, 0], [1, 0], [0, 1], [2, 3], [5, 1]] }

/-- The five corresponding points of the second image. -/
def points2 : Mat ℝ :=
  { rows := 2, data := [[1, 0], [2, 0], [1, 1], [3, 3], [6, 1]] }

/-- Squared length of the first column of a point set. -/
def firstNormSq (x : Mat ℝ) : ℝ :=
  match x.data with
  | [u, w] :: _ => u * u + w * w
  | _ => 0

/-- Stages of a five-point solver: the polynomial is `z^10 + 1 + s`, with `s`
the sum of the squared lengths of the first points of the two sets, and the
candidate model is the root itself. -/
def stages : FivePointStages ℝ :=
  { polynomial := fun x1 x2 =>
      ⟨[1 + (firstNormSq x1 + firstNormSq x2), 0, 0, 0, 0, 0, 0, 0, 0, 0, 1], rfl⟩
    candidate := fun _ _ z => z }

/-- A tree shape: the root of every subtree is its middle element. -/
def shape : Nat → Nat → Nat → Nat := fun _ lo hi => (hi - lo) / 2

/-- Features of the left image, as `(x, y)` pairs. -/
def leftFeat : List (Int × Int) := [(0, 0), (3, 1), (5, 2), (0, 0)]

/-- Features of the right image. -/
def rightFeat : List (Int × Int) := [(7, 7), (8, 8), (9, 9), (6, 6)]

/-- Five matches; the first, the fourth and the fifth share the left
coordinates `(0, 0)`. -/
def vec_matches : List IndMatch :=
  [{ _i := 0, _j := 0 }, { _i := 1, _j := 1 }, { _i := 2, _j := 2 }, { _i := 3, _j := 3 },
    { _i := 0, _j := 3 }]

/-- The decorator built from the five matches. -/
def decorator : IndMatchDecorator Int :=
  { _vec_matches := vec_matches
    _vecDecoredMatches :=
      [{ x1 := 0, y1 := 0, x2 := 7, y2 := 7, index := { _i := 0, _j := 0 } },
        { x1 := 3, y1 := 1, x2 := 8, y2 := 8, index := { _i := 1, _j := 1 } },
        { x1 := 5, y1 := 2, x2 := 9, y2 := 9, index := { _i := 2, _j := 2 } },
        { x1 := 0, y1 := 0, x2 := 6, y2 := 6, index := { _i := 3, _j := 3 } },
        { x1 := 0, y1 := 0, x2 := 6, y2 := 6, index := { _i := 0, _j := 3 } }] }

end Demo

end aliceVision

/-! # Properties -/

namespace aliceVision

/-! ## Shared lemmas -/

section Lemmas

variable {α M T : Type}

/-- The un-normalization loop started at index `i` leaves the first `i` models
alone and un-normalizes each of the others once. -/
theorem NormalizedSolver.unnormalizeLoop_eq (U : T → T → M → M) (T1 T2 : T) :
    ∀ (fuel i : Nat) (models : List M), models.length ≤ i + fuel →
      NormalizedSolver.unnormalizeLoop U T1 T2 fuel i models
        = models.take i ++ (models.drop i).map (U T1 T2) := by
  intro fuel
  induction fuel with
  | zero =>
    intro i models h
    have hi : models.length ≤ i := by omega
    simp [NormalizedSolver.unnormalizeLoop, List.take_of_length_le hi, List.drop_of_length_le hi]
  | succ fuel ih =>
    intro i models h
    unfold NormalizedSolver.unnormalizeLoop
    by_cases hi : i < models.length
    · rw [dif_pos hi, ih (i + 1) _ (by simp; omega)]
      have hd : models.drop i = models.get ⟨i, hi⟩ :: models.drop (i + 1) := by
        simp
      have ht : (models.set i (U T1 T2 (models.get ⟨i, hi⟩))).take i = models.take i := by
        rw [List.set_take, List.set_eq_of_length_le (by simp)]
      rw [hd, List.map_cons, List.take_succ, List.drop_set, ht]
      simp [hi]
    · rw [dif_neg hi]
      have hi' : models.length ≤ i := by omega
      simp [List.take_of_length_le hi', List.drop_of_length_le hi']

/-- The whole un-normalization loop is a map over the model list. -/
theorem NormalizedSolver.unnormalizeLoop_eq_map (U : T → T → M → M) (T1 T2 : T)
    (models : List M) :
    NormalizedSolver.unnormalizeLoop U T1 T2 models.length 0 models = models.map (U T1 T2) := by
  rw [NormalizedSolver.unnormalizeLoop_eq U T1 T2 models.length 0 models (by omega)]
  simp

/-- When its four assertions hold, the adapter runs the raw solver on the
normalized points and un-normalizes every model of the list the solver leaves. -/
theorem NormalizedSolver.Solve_eq (norm : Mat α → Mat α × T) (S : Solver α M)
    (U : T → T → M → M) (x1 x2 : Mat α) (models : List M)
    (h1 : x1.rows = 2) (h2 : x2.rows = 2) (hc : x1.cols = x2.cols)
    (hN : S.MINIMUM_SAMPLES ≤ x1.cols) :
    NormalizedSolver.Solve norm S U x1 x2 models
      = (S.Solve (norm x1).1 (norm x2).1 models).map (List.map (U (norm x1).2 (norm x2).2)) := by
  unfold NormalizedSolver.Solve
  rw [if_neg (by simp [h1]), if_neg (by simpa using hN), if_neg (by simp [h1, h2]),
    if_neg (by simp [hc])]
  cases hS : S.Solve (norm x1).1 (norm x2).1 models with
  | none => simp [hS]
  | some ms => simp [hS, NormalizedSolver.unnormalizeLoop_eq_map]

/-- The extracted matrix has one column per sampled index. -/
theorem ExtractColumns_cols (A : Mat α) (columns : List Nat) :
    (ExtractColumns A columns).cols = columns.length := by
  simp [ExtractColumns, Mat.cols]

/-- The coefficient list `cs` is the coefficient list of a polynomial of degree
below `cs.length`, which is zero only when every coefficient is. -/
theorem evalPoly_eq_eval {R : Type} [CommRing R] [IsDomain R] (cs : List R) :
    ∃ p : Polynomial R, (∀ z, p.eval z = evalPoly cs z)
      ∧ p.degree < (cs.length : WithBot ℕ) ∧ (p = 0 → ∀ c ∈ cs, c = 0) := by
  induction cs with
  | nil => exact ⟨0, by simp [evalPoly], by simp, by simp⟩
  | cons c cs ih =>
    obtain ⟨p, hev, hdeg, hzero⟩ := ih
    refine ⟨Polynomial.C c + Polynomial.X * p, ?_, ?_, ?_⟩
    · intro z
      simp [evalPoly, hev]
    · have hC : (Polynomial.C c).degree < ((c :: cs).length : WithBot ℕ) :=
        lt_of_le_of_lt Polynomial.degree_C_le (by simp; exact_mod_cast Nat.succ_pos _)
      have hX : (Polynomial.X * p).degree < ((c :: cs).length : WithBot ℕ) := by
        by_cases hp : p = 0
        · simp [hp]; exact_mod_cast WithBot.bot_lt_coe _
        · rw [Polynomial.degree_mul, Polynomial.degree_X, add_comm]
          have := Polynomial.degree_eq_natDegree hp
          rw [this] at hdeg ⊢
          have h' : p.natDegree < cs.length := by exact_mod_cast hdeg
          simp only [List.length_cons]
          exact_mod_cast Nat.succ_lt_succ h'
      exact lt_of_le_of_lt (Polynomial.degree_add_le _ _) (max_lt hC hX)
    · intro h0
      have hc : c = 0 := by
        have := congrArg (fun q : Polynomial R => q.coeff 0) h0
        simpa using this
      have hp : p = 0 := by
        rw [hc] at h0
        simp only [map_zero, zero_add, mul_eq_zero] at h0
        rcases h0 with h0 | h0
        · exact absurd h0 Polynomial.X_ne_zero
        · exact h0
      intro d hd
      rcases List.mem_cons.mp hd with hd | hd
      · rw [hd]; exact hc
      · exact hzero hp d hd

/-- A polynomial with a nonzero coefficient has fewer distinct roots than
coefficients. -/
theorem evalPoly_roots_length_lt {R : Type} [CommRing R] [IsDomain R] (cs rs : List R)
    (hne : ∃ c ∈ cs, c ≠ 0) (hroot : ∀ r ∈ rs, evalPoly cs r = 0) (hnodup : rs.Nodup) :
    rs.length < cs.length := by
  obtain ⟨p, hev, hdeg, hzero⟩ := evalPoly_eq_eval cs
  have hp : p ≠ 0 := by
    intro h0
    obtain ⟨c, hc, hc0⟩ := hne
    exact hc0 (hzero h0 c hc)
  have hsub : (rs : Multiset R) ≤ p.roots := by
    rw [Multiset.le_iff_subset (Multiset.coe_nodup.mpr hnodup)]
    intro r hr
    rw [Polynomial.mem_roots hp, Polynomial.IsRoot, hev]
    exact hroot r (by simpa using hr)
  have hcard : rs.length ≤ p.natDegree := by
    have := Multiset.card_le_card hsub
    simp only [Multiset.coe_card] at this
    exact this.trans (Polynomial.card_roots' p)
  have hnat : p.natDegree < cs.length := (Polynomial.natDegree_lt_iff_degree_lt hp).mpr hdeg
  omega

/-- A polynomial whose coefficients are all zero vanishes everywhere. -/
theorem evalPoly_eq_zero_of_coefficients_zero {R : Type} [CommRing R] (cs : List R)
    (h : ∀ c ∈ cs, c = 0) (z : R) : evalPoly cs z = 0 := by
  induction cs with
  | nil => rfl
  | cons c cs ih =>
    have hc : c = 0 := h c (List.mem_cons_self _ _)
    have hcs : ∀ d ∈ cs, d = 0 := fun d hd => h d (List.mem_cons_of_mem _ hd)
    simp [evalPoly, hc, ih hcs]

/-- The list of real roots holds roots only, each once, and fewer of them than
there are coefficients. -/
theorem realRoots_spec (cs : List ℝ) :
    (∀ r ∈ realRoots cs, evalPoly cs r = 0) ∧ (realRoots cs).Nodup
    ∧ (realRoots cs).length + 1 ≤ cs.length + 1
    ∧ (cs ≠ [] → (realRoots cs).length < cs.length) := by
  unfold realRoots
  split
  · next hfin =>
    have hroot : ∀ r ∈ hfin.toFinset.toList, evalPoly cs r = 0 := by
      intro r hr
      simpa using hr
    have hnodup : hfin.toFinset.toList.Nodup := Finset.nodup_toList _
    have hne : ∃ c ∈ cs, c ≠ 0 := by
      by_contra hall
      push_neg at hall
      have huniv : {z : ℝ | evalPoly cs z = 0} = Set.univ := by
        ext z
        simp [evalPoly_eq_zero_of_coefficients_zero cs hall z]
      rw [huniv] at hfin
      exact Set.infinite_univ hfin
    have hlt := evalPoly_roots_length_lt cs _ hne hroot hnodup
    exact ⟨hroot, hnodup, by omega, fun _ => hlt⟩
  · refine ⟨by simp, List.nodup_nil, by simp, fun h => ?_⟩
    simpa using List.length_pos.mpr h

/-- The loop of `L2_Simple` adds to the accumulator the squared differences of
the next `n` elements, provided both sequences have that many. -/
theorem L2_Simple.loop_eq {T A : Type} [AddCommMonoid A] [Mul A] (sub : T → T → A) :
    ∀ (n : Nat) (a b : List T) (result : A) (ha : n ≤ a.length) (hb : n ≤ b.length),
      L2_Simple.loop sub n a b result
        = some (result + ∑ i : Fin n,
            sub (a.get ⟨i.1, lt_of_lt_of_le i.2 ha⟩) (b.get ⟨i.1, lt_of_lt_of_le i.2 hb⟩)
              * sub (a.get ⟨i.1, lt_of_lt_of_le i.2 ha⟩) (b.get ⟨i.1, lt_of_lt_of_le i.2 hb⟩)) := by
  intro n
  induction n with
  | zero => intro a b result _ _; simp [L2_Simple.loop]
  | succ n ih =>
    intro a b result ha hb
    cases a with
    | nil => simp at ha
    | cons x a =>
      cases b with
      | nil => simp at hb
      | cons y b =>
        have ha' : n ≤ a.length := by simpa using ha
        have hb' : n ≤ b.length := by simpa using hb
        simp only [L2_Simple.loop]
        rw [ih a b _ ha' hb', Fin.sum_univ_succ]
        simp [add_assoc]

/-- One iteration of the loop of `L2_Simple`, seen from offset `pos`. -/
theorem L2_Simple.loop_drop_step {T A : Type} [Zero A] [Add A] [Mul A] (sub : T → T → A)
    (a b : List T) (n pos : Nat) (result : A) (hpos : pos < n) (ha : n ≤ a.length)
    (hb : n ≤ b.length) :
    L2_Simple.loop sub (n - pos) (a.drop pos) (b.drop pos) result
      = L2_Simple.loop sub (n - (pos + 1)) (a.drop (pos + 1)) (b.drop (pos + 1))
          (result + sub (a.get ⟨pos, by omega⟩) (b.get ⟨pos, by omega⟩)
            * sub (a.get ⟨pos, by omega⟩) (b.get ⟨pos, by omega⟩)) := by
  have hn : n - pos = (n - (pos + 1)) + 1 := by omega
  have hda : a.drop pos = a.get ⟨pos, by omega⟩ :: a.drop (pos + 1) := by simp
  have hdb : b.drop pos = b.get ⟨pos, by omega⟩ :: b.drop (pos + 1) := by simp
  rw [hn, hda, hdb]
  simp only [L2_Simple.loop]

/-- The tail loop of `L2_Vectorized` does what the loop of `L2_Simple` does on
the elements from offset `pos` on. -/
theorem L2_Vectorized.tailLoop_eq {T A : Type} [Zero A] [Add A] [Mul A] (sub : T → T → A)
    (a b : List T) (n : Nat) (ha : n ≤ a.length) (hb : n ≤ b.length) :
    ∀ (fuel pos : Nat) (result : A), n - pos ≤ fuel →
      L2_Vectorized.tailLoop sub a b n fuel pos result
        = L2_Simple.loop sub (n - pos) (a.drop pos) (b.drop pos) result := by
  intro fuel
  induction fuel with
  | zero =>
    intro pos result h
    have hz : n - pos = 0 := by omega
    have hlt : ¬ pos < n := by omega
    simp [L2_Vectorized.tailLoop, hz, hlt, L2_Simple.loop]
  | succ fuel ih =>
    intro pos result h
    by_cases hlt : pos < n
    · have hpa : pos < a.length := by omega
      have hpb : pos < b.length := by omega
      rw [L2_Simple.loop_drop_step sub a b n pos result hlt ha hb]
      simp only [L2_Vectorized.tailLoop, if_pos hlt, List.getElem?_eq_getElem hpa,
        List.getElem?_eq_getElem hpb]
      rw [ih (pos + 1) _ (by omega)]
      rfl
    · have hz : n - pos = 0 := by omega
      simp [L2_Vectorized.tailLoop, hz, hlt, L2_Simple.loop]

/-- The 4-wide loop of `L2_Vectorized` exits in a state from which the loop of
`L2_Simple` yields what it yields from the state the 4-wide loop was entered in. -/
theorem L2_Vectorized.mainLoop_eq {T A : Type} [AddCommMonoid A] [Mul A] (sub : T → T → A)
    (a b : List T) (n : Nat) (ha : n ≤ a.length) (hb : n ≤ b.length) :
    ∀ (fuel pos : Nat) (result : A), n - pos ≤ fuel →
      ∃ (pos' : Nat) (result' : A),
        L2_Vectorized.mainLoop sub a b ((n : Int) - 3) fuel pos result = some (pos', result')
        ∧ L2_Simple.loop sub (n - pos') (a.drop pos') (b.drop pos') result'
            = L2_Simple.loop sub (n - pos) (a.drop pos) (b.drop pos) result := by
  intro fuel
  induction fuel with
  | zero =>
    intro pos result h
    have hlt : ¬ (pos : Int) < (n : Int) - 3 := by omega
    exact ⟨pos, result, by simp [L2_Vectorized.mainLoop, hlt], rfl⟩
  | succ fuel ih =>
    intro pos result h
    by_cases hlt : (pos : Int) < (n : Int) - 3
    · have h3 : pos + 3 < n := by omega
      obtain ⟨pos', result', hrun, heq⟩ := ih (pos + 4)
        (result + (sub (a.get ⟨pos, by omega⟩) (b.get ⟨pos, by omega⟩)
              * sub (a.get ⟨pos, by omega⟩) (b.get ⟨pos, by omega⟩)
            + sub (a.get ⟨pos + 1, by omega⟩) (b.get ⟨pos + 1, by omega⟩)
              * sub (a.get ⟨pos + 1, by omega⟩) (b.get ⟨pos + 1, by omega⟩)
            + sub (a.get ⟨pos + 2, by omega⟩) (b.get ⟨pos + 2, by omega⟩)
              * sub (a.get ⟨pos + 2, by omega⟩) (b.get ⟨pos + 2, by omega⟩)
            + sub (a.get ⟨pos + 3, by omega⟩) (b.get ⟨pos + 3, by omega⟩)
              * sub (a.get ⟨pos + 3, by omega⟩) (b.get ⟨pos + 3, by omega⟩))) (by omega)
      refine ⟨pos', result', ?_, ?_⟩
      · rw [← hrun]
        simp only [L2_Vectorized.mainLoop, if_pos hlt,
          List.getElem?_eq_getElem (show pos < a.length by omega),
          List.getElem?_eq_getElem (show pos + 1 < a.length by omega),
          List.getElem?_eq_getElem (show pos + 2 < a.length by omega),
          List.getElem?_eq_getElem (show pos + 3 < a.length by omega),
          List.getElem?_eq_getElem (show pos < b.length by omega),
          List.getElem?_eq_getElem (show pos + 1 < b.length by omega),
          List.getElem?_eq_getElem (show pos + 2 < b.length by omega),
          List.getElem?_eq_getElem (show pos + 3 < b.length by omega)]
        rfl
      · rw [heq, L2_Simple.loop_drop_step sub a b n pos result (by omega) ha hb,
          L2_Simple.loop_drop_step sub a b n (pos + 1) _ (by omega) ha hb,
          L2_Simple.loop_drop_step sub a b n (pos + 2) _ (by omega) ha hb,
          L2_Simple.loop_drop_step sub a b n (pos + 3) _ (by omega) ha hb]
        simp only [add_assoc]
    · exact ⟨pos, result, by simp [L2_Vectorized.mainLoop, hlt], rfl⟩

/-- The loop of `l2_sse`, entered with a multiple of 4 elements left, exits with
a register whose four lanes add up to what the loop of `L2_Simple` yields when
started with the sum of the lanes on entry. -/
theorem optim_ss2.sseLoop_eq {A : Type} [AddCommMonoid A] [Mul A] [Sub A] (b1 b2 : List A)
    (n : Nat) (h1 : n ≤ b1.length) (h2 : n ≤ b2.length) :
    ∀ (fuel i : Nat) (cumSum : A × A × A × A), (n - i) % 4 = 0 → n - i ≤ fuel →
      ∃ res : A × A × A × A,
        optim_ss2.sseLoop b1 b2 n fuel i cumSum = some res
        ∧ L2_Simple.loop (fun x y => x - y) (n - i) (b1.drop i) (b2.drop i)
            (cumSum.1 + cumSum.2.1 + cumSum.2.2.1 + cumSum.2.2.2)
          = some (res.1 + res.2.1 + res.2.2.1 + res.2.2.2) := by
  intro fuel
  induction fuel with
  | zero =>
    intro i cumSum _ h
    have hz : n - i = 0 := by omega
    have hlt : ¬ i < n := by omega
    exact ⟨cumSum, by simp [optim_ss2.sseLoop, hlt], by simp [hz, L2_Simple.loop]⟩
  | succ fuel ih =>
    intro i cumSum hmod h
    by_cases hlt : i < n
    · have h3 : i + 3 < n := by omega
      obtain ⟨res, hrun, heq⟩ := ih (i + 4)
        (optim_ss2.add_ps cumSum
          (optim_ss2.mul_ps
            (optim_ss2.sub_ps
              (b1.get ⟨i, by omega⟩, b1.get ⟨i + 1, by omega⟩, b1.get ⟨i + 2, by omega⟩,
                b1.get ⟨i + 3, by omega⟩)
              (b2.get ⟨i, by omega⟩, b2.get ⟨i + 1, by omega⟩, b2.get ⟨i + 2, by omega⟩,
                b2.get ⟨i + 3, by omega⟩))
            (optim_ss2.sub_ps
              (b1.get ⟨i, by omega⟩, b1.get ⟨i + 1, by omega⟩, b1.get ⟨i + 2, by omega⟩,
                b1.get ⟨i + 3, by omega⟩)
              (b2.get ⟨i, by omega⟩, b2.get ⟨i + 1, by omega⟩, b2.get ⟨i + 2, by omega⟩,
                b2.get ⟨i + 3, by omega⟩))))
        (by omega) (by omega)
      refine ⟨res, ?_, ?_⟩
      · rw [← hrun]
        simp only [optim_ss2.sseLoop, if_pos hlt, optim_ss2.load,
          List.getElem?_eq_getElem (show i < b1.length by omega),
          List.getElem?_eq_getElem (show i + 1 < b1.length by omega),
          List.getElem?_eq_getElem (show i + 2 < b1.length by omega),
          List.getElem?_eq_getElem (show i + 3 < b1.length by omega),
          List.getElem?_eq_getElem (show i < b2.length by omega),
          List.getElem?_eq_getElem (show i + 1 < b2.length by omega),
          List.getElem?_eq_getElem (show i + 2 < b2.length by omega),
          List.getElem?_eq_getElem (show i + 3 < b2.length by omega)]
        rfl
      · rw [← heq, L2_Simple.loop_drop_step _ b1 b2 n i _ (by omega) h1 h2,
          L2_Simple.loop_drop_step _ b1 b2 n (i + 1) _ (by omega) h1 h2,
          L2_Simple.loop_drop_step _ b1 b2 n (i + 2) _ (by omega) h1 h2,
          L2_Simple.loop_drop_step _ b1 b2 n (i + 3) _ (by omega) h1 h2]
        simp only [optim_ss2.add_ps, optim_ss2.mul_ps, optim_ss2.sub_ps, add_assoc]
        congr 1
        abel
    · have hz : n - i = 0 := by omega
      exact ⟨cumSum, by simp [optim_ss2.sseLoop, hlt], by simp [hz, L2_Simple.loop]⟩

/-- Whenever `operator<` holds, the first match has the smaller `y1` and the
two `x1` differ. -/
theorem IndMatchDecoratorStruct.y1_lt_of_operatorLess {T : Type} [LinearOrder T]
    (m1 m2 : IndMatchDecoratorStruct T)
    (h : IndMatchDecoratorStruct.operatorLess m1 m2 = true) :
    m1.y1 < m2.y1 ∧ m1.x1 ≠ m2.x1 := by
  unfold IndMatchDecoratorStruct.operatorLess at h
  split at h
  · exact absurd h (by simp)
  · split at h
    · next hx => exact ⟨of_decide_eq_true h, ne_of_lt hx⟩
    · split at h
      · next hx => exact ⟨of_decide_eq_true h, ne_of_gt hx⟩
      · next hx _ => exact absurd (of_decide_eq_true h) hx

/-- The descent stops at a position between `lo` and `hi` such that the key is
less than the element at that position, if there is one. -/
theorem StdSet.findPos_spec {X : Type} (less : X → X → Bool) (shape : Nat → Nat → Nat)
    (l : List X) (v : X) :
    ∀ (fuel lo hi : Nat), lo ≤ hi → hi ≤ l.length → hi - lo ≤ fuel →
      (∀ x, l[hi]? = some x → less v x = true) →
      lo ≤ StdSet.findPos less shape l v fuel lo hi
      ∧ StdSet.findPos less shape l v fuel lo hi ≤ hi
      ∧ ∀ x, l[StdSet.findPos less shape l v fuel lo hi]? = some x → less v x = true := by
  intro fuel
  induction fuel with
  | zero =>
    intro lo hi h1 _ h3 hsucc
    have : lo = hi := by omega
    subst this
    exact ⟨le_refl _, le_refl _, hsucc⟩
  | succ fuel ih =>
    intro lo hi h1 h2 h3 hsucc
    by_cases hlt : lo < hi
    · have hm : lo + shape lo hi % (hi - lo) < hi := by
        have := Nat.mod_lt (shape lo hi) (show 0 < hi - lo by omega)
        omega
      have hml : lo + shape lo hi % (hi - lo) < l.length := by omega
      simp only [StdSet.findPos, if_pos hlt, List.getElem?_eq_getElem hml]
      by_cases hv : less v (l[lo + shape lo hi % (hi - lo)]) = true
      · rw [if_pos hv]
        obtain ⟨a, b, c⟩ := ih lo (lo + shape lo hi % (hi - lo)) (by omega) (by omega)
          (by omega) (by
            intro x hx
            rw [List.getElem?_eq_getElem hml] at hx
            cases hx
            exact hv)
        exact ⟨a, by omega, c⟩
      · rw [if_neg hv]
        obtain ⟨a, b, c⟩ := ih (lo + shape lo hi % (hi - lo) + 1) hi (by omega) h2
          (by omega) hsucc
        exact ⟨by omega, b, c⟩
    · have : lo = hi := by omega
      subst this
      simp only [StdSet.findPos, if_neg hlt]
      exact ⟨le_refl _, le_refl _, hsucc⟩

/-- Linking `v` between two parts of a sequence ordered by a transitive relation
keeps it ordered, when the last element before `v` and the first one after it
are related to `v`. -/
theorem StdSet.pairwise_link {X : Type} (R : X → X → Prop)
    (htrans : ∀ a b c, R a b → R b c → R a c) (l1 l2 : List X) (v : X)
    (h : (l1 ++ l2).Pairwise R)
    (hpred : ∀ j, l1.getLast? = some j → R j v)
    (hsucc : ∀ q, l2.head? = some q → R v q) :
    (l1 ++ v :: l2).Pairwise R := by
  rw [List.pairwise_append] at h ⊢
  obtain ⟨hp1, hp2, h12⟩ := h
  have hv2 : ∀ b ∈ l2, R v b := by
    cases l2 with
    | nil => intro b hb; simp at hb
    | cons q t =>
      intro b hb
      have hq : R v q := hsucc q rfl
      rcases List.mem_cons.mp hb with hb | hb
      · rw [hb]; exact hq
      · exact htrans _ _ _ hq ((List.pairwise_cons.mp hp2).1 b hb)
  have h1v : ∀ a ∈ l1, R a v := by
    rcases List.eq_nil_or_concat l1 with hnil | ⟨t, j, hj⟩
    · intro a ha; rw [hnil] at ha; simp at ha
    · rw [List.concat_eq_append] at hj
      have hjv : R j v := hpred j (by rw [hj, List.getLast?_concat])
      intro a ha
      rw [hj] at ha hp1
      rcases List.mem_append.mp ha with ha | ha
      · exact htrans _ _ _ ((List.pairwise_append.mp hp1).2.2 a ha j (by simp)) hjv
      · have : a = j := by simpa using ha
        rw [this]; exact hjv
  refine ⟨hp1, List.pairwise_cons.mpr ⟨hv2, hp2⟩, ?_⟩
  intro a ha b hb
  rcases List.mem_cons.mp hb with hb | hb
  · rw [hb]; exact h1v a ha
  · exact h12 a ha b hb

/-- One insertion keeps the set ordered by any transitive relation that
`less` implies, adds no element other than the key and at most one element. -/
theorem StdSet.insertUnique_spec {X : Type} (less : X → X → Bool) (R : X → X → Prop)
    (hR : ∀ a b, less a b = true → R a b) (htrans : ∀ a b c, R a b → R b c → R a c)
    (shape : Nat → Nat → Nat) (l : List X) (v : X) (h : l.Pairwise R) :
    (StdSet.insertUnique less shape l v).Pairwise R
    ∧ (∀ x ∈ StdSet.insertUnique less shape l v, x = v ∨ x ∈ l)
    ∧ (StdSet.insertUnique less shape l v).length ≤ l.length + 1 := by
  have hlink : ∀ k, k ≤ l.length →
      (∀ x ∈ l.take k ++ v :: l.drop k, x = v ∨ x ∈ l)
      ∧ (l.take k ++ v :: l.drop k).length ≤ l.length + 1 := by
    intro k hk
    refine ⟨?_, ?_⟩
    · intro x hx
      rcases List.mem_append.mp hx with hx | hx
      · exact Or.inr (List.mem_of_mem_take hx)
      · rcases List.mem_cons.mp hx with hx | hx
        · exact Or.inl hx
        · exact Or.inr (List.mem_of_mem_drop hx)
    · simp only [List.length_append, List.length_take, List.length_cons, List.length_drop]
      omega
  have hpos : (StdSet.insertUniquePos less shape l v).Pairwise R
      ∧ (∀ x ∈ StdSet.insertUniquePos less shape l v, x = v ∨ x ∈ l)
      ∧ (StdSet.insertUniquePos less shape l v).length ≤ l.length + 1 := by
    obtain ⟨_, hk, hsucc⟩ := StdSet.findPos_spec less shape l v (l.length + 1) 0 l.length
      (by omega) (le_refl _) (by omega) (by simp)
    have hsucc' : ∀ q, (l.drop (StdSet.findPos less shape l v (l.length + 1) 0 l.length)).head?
        = some q → R v q := by
      intro q hq
      rw [List.head?_drop] at hq
      exact hR _ _ (hsucc q hq)
    have hsplit : (l.take (StdSet.findPos less shape l v (l.length + 1) 0 l.length)
        ++ l.drop (StdSet.findPos less shape l v (l.length + 1) 0 l.length)).Pairwise R := by
      rw [List.take_append_drop]; exact h
    unfold StdSet.insertUniquePos
    simp only []
    split
    · next hnone =>
      exact ⟨StdSet.pairwise_link R htrans _ _ v hsplit (by simp [hnone]) hsucc',
        (hlink _ hk).1, (hlink _ hk).2⟩
    · next j hj =>
      by_cases hjv : less j v = true
      · rw [if_pos hjv]
        refine ⟨StdSet.pairwise_link R htrans _ _ v hsplit ?_ hsucc',
          (hlink _ hk).1, (hlink _ hk).2⟩
        intro j' hj'
        rw [hj] at hj'
        cases hj'
        exact hR _ _ hjv
      · rw [if_neg hjv]
        exact ⟨h, fun x hx => Or.inr hx, by omega⟩
  unfold StdSet.insertUnique
  split
  · next r hr =>
    by_cases hrv : less r v = true
    · rw [if_pos hrv]
      refine ⟨?_, ?_, by simp⟩
      · have := StdSet.pairwise_link R htrans l [] v (by simpa using h)
          (fun j hj => by rw [hr] at hj; cases hj; exact hR _ _ hrv) (by simp)
        simpa using this
      · intro x hx
        rcases List.mem_append.mp hx with hx | hx
        · exact Or.inr hx
        · exact Or.inl (by simpa using hx)
    · rw [if_neg hrv]; exact hpos
  · exact hpos

/-- The range constructor keeps the set ordered, takes its elements from the set
it starts from and from the range, and adds at most one element per element of
the range. -/
theorem StdSet.insertRange_spec {X : Type} (less : X → X → Bool) (R : X → X → Prop)
    (hR : ∀ a b, less a b = true → R a b) (htrans : ∀ a b c, R a b → R b c → R a c)
    (shape : Nat → Nat → Nat → Nat) :
    ∀ (range : List X) (step : Nat) (l : List X), l.Pairwise R →
      (StdSet.insertRange less shape step l range).Pairwise R
      ∧ (∀ x ∈ StdSet.insertRange less shape step l range, x ∈ l ∨ x ∈ range)
      ∧ (StdSet.insertRange less shape step l range).length ≤ l.length + range.length := by
  intro range
  induction range with
  | nil =>
    intro step l h
    exact ⟨h, fun x hx => Or.inl hx, by simp [StdSet.insertRange]⟩
  | cons v rest ih =>
    intro step l h
    obtain ⟨h1, h2, h3⟩ := StdSet.insertUnique_spec less R hR htrans (shape step) l v h
    obtain ⟨i1, i2, i3⟩ := ih (step + 1) _ h1
    refine ⟨i1, ?_, ?_⟩
    · intro x hx
      rcases i2 x hx with hx | hx
      · rcases h2 x hx with hx | hx
        · exact Or.inr (by rw [hx]; exact List.mem_cons_self _ _)
        · exact Or.inl hx
      · exact Or.inr (List.mem_cons_of_mem _ hx)
    · simp only [StdSet.insertRange, List.length_cons] at i3 ⊢
      omega

/-- The decorated matches are the matches, in order, each with the coordinates
of the two features it points to. -/
theorem IndMatchDecorator.decorate_spec {T : Type} (leftFeat rightFeat : List (T × T)) :
    ∀ (ms : List IndMatch) (ds : List (IndMatchDecoratorStruct T)),
      IndMatchDecorator.decorate leftFeat rightFeat ms = some ds →
      ds.map (fun d => d.index) = ms
      ∧ ∀ d ∈ ds, leftFeat[d.index._i]? = some (d.x1, d.y1)
          ∧ rightFeat[d.index._j]? = some (d.x2, d.y2) := by
  intro ms
  induction ms with
  | nil =>
    intro ds h
    simp only [IndMatchDecorator.decorate] at h
    cases h
    simp
  | cons m rest ih =>
    intro ds h
    simp only [IndMatchDecorator.decorate] at h
    split at h
    · next l r ds' hl hr hds =>
      cases h
      obtain ⟨e1, e2⟩ := ih ds' hds
      refine ⟨by simp [e1], ?_⟩
      intro d hd
      rcases List.mem_cons.mp hd with hd | hd
      · subst hd
        exact ⟨hl, hr⟩
      · exact e2 d hd
    · exact absurd h (by simp)

end Lemmas

/-! ## The kernel and the adapter -/

section KernelClaims

variable {α M T D : Type}

/-- C1.  The adapter is not append-only.  On the translation instance, `Fit`
through `NormalizedSolver` is given the list `[(5, 5)]` and the sample `[1, 2]`;
the raw solver, run on the normalized points, only appends the model `(0, 0)`,
yet the final list is `[(15, 25), (10, 20)]`: the loop of `NormalizedSolver::Solve` starts at index 0,
so the pre-seeded model was un-normalized too and `[(5, 5)]` is no prefix of the
final list. -/
theorem C1_adapter_rewrites_preseeded_model :
    Kernel.Fit (NormalizedSolver Demo.centerOnFirst Demo.translationSolver
        Demo.unnormalizeTranslation) Demo.kernel [1, 2] [(5, 5)]
      = some [(15, 25), (10, 20)]
    ∧ Demo.translationSolver.Solve
        (Demo.centerOnFirst (ExtractColumns Demo.kernel.x1 [1, 2])).1
        (Demo.centerOnFirst (ExtractColumns Demo.kernel.x2 [1, 2])).1 [(5, 5)]
      = some ([(5, 5)] ++ [(0, 0)])
    ∧ ¬ [((5 : Int), (5 : Int))] <+: [(15, 25), (10, 20)] := by
  refine ⟨by decide, by decide, ?_⟩
  rintro ⟨t, ht⟩
  simp at ht

/-- C2.  When the solver only appends (whenever it returns, the list it was
given is a prefix of the list it leaves), so does `Fit` of the plain kernel:
the list it was given is a prefix of the list it leaves, and `Fit` fails only
where the solver itself fails on the extracted columns. -/
theorem C2_Fit_appends_only (S : Solver α M) (k : Kernel α) (samples : List Nat) (L : List M)
    (hS : ∀ x1 x2 models models', S.Solve x1 x2 models = some models' → models <+: models') :
    (∀ L', Kernel.Fit S k samples L = some L' → L <+: L')
    ∧ (Kernel.Fit S k samples L = none ↔
        S.Solve (ExtractColumns k.x1 samples) (ExtractColumns k.x2 samples) L = none) := by
  refine ⟨fun L' h => ?_, Iff.rfl⟩
  exact hS _ _ _ _ h

/-- C2, on the translation solver: the pre-seeded model stays first. -/
theorem C2_Fit_appends_only_witness :
    (∀ x1 x2 models models', Demo.translationSolver.Solve x1 x2 models = some models' →
        models <+: models')
    ∧ Kernel.Fit Demo.translationSolver Demo.kernel [1, 2] [(5, 5)] = some [(5, 5), (10, 20)]
    ∧ [((5 : Int), (5 : Int))] <+: [(5, 5), (10, 20)] := by
  have hS : ∀ x1 x2 models models', Demo.translationSolver.Solve x1 x2 models = some models' →
      models <+: models' := by
    intro x1 x2 models models' h
    simp only [Demo.translationSolver] at h
    split at h
    · cases h; exact List.prefix_append _ _
    · cases h; exact List.prefix_refl _
  exact ⟨hS, by decide,
    (C2_Fit_appends_only Demo.translationSolver Demo.kernel [1, 2] [(5, 5)] hS).1 _ (by decide)⟩

/-- C3.  For a sample of valid column indices, `Fit` is the solver run on two
matrices `x1'` and `x2'` with the rows of the kernel's point sets and one column
per sampled index, column `j` being column `samples[j]` of `x1`, respectively of
`x2`: the order of the sample is kept and both sets are indexed alike. -/
theorem C3_Fit_solves_on_sampled_columns (S : Solver α M) (k : Kernel α) (samples : List Nat)
    (models : List M) (hvalid : ∀ i ∈ samples, i < k.x1.cols ∧ i < k.x2.cols) :
    ∃ x1' x2' : Mat α,
      Kernel.Fit S k samples models = S.Solve x1' x2' models
      ∧ x1'.rows = k.x1.rows ∧ x2'.rows = k.x2.rows
      ∧ x1'.cols = samples.length ∧ x2'.cols = samples.length
      ∧ ∀ (j : Nat) (hj : j < samples.length),
          x1'.data[j]? = k.x1.data[samples.get ⟨j, hj⟩]?
          ∧ x2'.data[j]? = k.x2.data[samples.get ⟨j, hj⟩]? := by
  refine ⟨ExtractColumns k.x1 samples, ExtractColumns k.x2 samples, rfl, rfl, rfl,
    ExtractColumns_cols _ _, ExtractColumns_cols _ _, ?_⟩
  intro j hj
  have hv := hvalid (samples.get ⟨j, hj⟩) (List.get_mem _ _ _)
  have h1 : samples[j] < k.x1.data.length := hv.1
  have h2 : samples[j] < k.x2.data.length := hv.2
  simp [ExtractColumns, Mat.col, List.getD, hj, List.getElem?_eq_getElem, h1, h2]

/-- C3, on the translation kernel with the sample `[2, 0]`. -/
theorem C3_Fit_solves_on_sampled_columns_witness :
    ∃ x1' x2' : Mat Int,
      Kernel.Fit Demo.translationSolver Demo.kernel [2, 0] []
        = Demo.translationSolver.Solve x1' x2' []
      ∧ x1'.rows = Demo.kernel.x1.rows ∧ x2'.rows = Demo.kernel.x2.rows
      ∧ x1'.cols = [2, 0].length ∧ x2'.cols = [2, 0].length
      ∧ ∀ (j : Nat) (hj : j < [2, 0].length),
          x1'.data[j]? = Demo.kernel.x1.data[[2, 0].get ⟨j, hj⟩]?
          ∧ x2'.data[j]? = Demo.kernel.x2.data[[2, 0].get ⟨j, hj⟩]? :=
  C3_Fit_solves_on_sampled_columns Demo.translationSolver Demo.kernel [2, 0] [] (by decide)

/-- C4, as stated, fails.  The translation solver needs one correspondence; on
the empty sample `Fit` checks nothing, hands the two empty point sets to the
solver and returns normally with the model list unchanged, which is the outcome
of a fit that found no model. -/
theorem C4_Fit_accepts_short_sample :
    ([] : List Nat).length < Kernel.MINIMUM_SAMPLES Demo.translationSolver
    ∧ Kernel.Fit Demo.translationSolver Demo.kernel [] [] = some []
    ∧ Kernel.Fit Demo.translationSolver Demo.kernel [] []
        = Demo.translationSolver.Solve { rows := 2, data := [] } { rows := 2, data := [] } []
    ∧ ¬ (∀ (S : Solver Int (Int × Int)) (k : Kernel Int) (samples : List Nat)
          (models : List (Int × Int)),
          samples.length < Kernel.MINIMUM_SAMPLES S → Kernel.Fit S k samples models = none) := by
  refine ⟨by decide, by decide, by decide, fun h => ?_⟩
  have h0 := h Demo.translationSolver Demo.kernel [] [] (by decide)
  exact absurd h0 (by decide)

/-- C4, amended.  `Fit` passes the extracted columns to the solver whatever the
length of the sample.  When the solver is `NormalizedSolver<S, U>`, a sample
with fewer than `MINIMUM_SAMPLES` indices trips
`assert(MINIMUM_SAMPLES <= x1.cols())` (or an assertion before it): `Fit` does
not return, whatever `S::Solve` would do, and this differs from returning with
no model appended. -/
theorem C4_adapter_asserts_on_short_sample (norm : Mat α → Mat α × T) (S : Solver α M)
    (U : T → T → M → M) (k : Kernel α) (samples : List Nat) (models : List M)
    (hshort : samples.length < Kernel.MINIMUM_SAMPLES (NormalizedSolver norm S U)) :
    Kernel.Fit (NormalizedSolver norm S U) k samples models = none
    ∧ Kernel.Fit (NormalizedSolver norm S U) k samples models ≠ some models
    ∧ ∀ S' : Solver α M, Kernel.Fit S' k samples models
        = S'.Solve (ExtractColumns k.x1 samples) (ExtractColumns k.x2 samples) models := by
  have hnone : Kernel.Fit (NormalizedSolver norm S U) k samples models = none := by
    have hlt : samples.length < S.MINIMUM_SAMPLES := hshort
    simp only [Kernel.Fit, NormalizedSolver, NormalizedSolver.Solve, ExtractColumns_cols]
    by_cases h2 : 2 = (ExtractColumns k.x1 samples).rows
    · rw [if_neg (not_not.mpr h2), if_pos (by omega)]
    · rw [if_pos h2]
  exact ⟨hnone, by simp [hnone], fun _ => rfl⟩

/-- C4 amended, on the translation kernel behind the adapter, with the empty sample. -/
theorem C4_adapter_asserts_on_short_sample_witness :
    ([] : List Nat).length < Kernel.MINIMUM_SAMPLES
        (NormalizedSolver Demo.centerOnFirst Demo.translationSolver Demo.unnormalizeTranslation)
    ∧ Kernel.Fit (NormalizedSolver Demo.centerOnFirst Demo.translationSolver
        Demo.unnormalizeTranslation) Demo.kernel [] [(5, 5)] = none :=
  ⟨by decide,
    (C4_adapter_asserts_on_short_sample Demo.centerOnFirst Demo.translationSolver
      Demo.unnormalizeTranslation Demo.kernel [] [(5, 5)] (by decide)).1⟩

/-- C5.  On two point sets with 2 rows and the same number of columns, at least
`MINIMUM_SAMPLES`, and an empty model list, `NormalizedSolver::Solve` returns
the models the raw solver returns on the two normalized point sets, in the same
order and number, each un-normalized once with the transform `T1` of `x1` and
the transform `T2` of `x2`; it fails only if the raw solver does. -/
theorem C5_adapter_unnormalizes_solver_models (norm : Mat α → Mat α × T) (S : Solver α M)
    (U : T → T → M → M) (x1 x2 : Mat α)
    (h1 : x1.rows = 2) (h2 : x2.rows = 2) (hc : x1.cols = x2.cols)
    (hN : S.MINIMUM_SAMPLES ≤ x1.cols) :
    NormalizedSolver.Solve norm S U x1 x2 []
      = (S.Solve (norm x1).1 (norm x2).1 []).map (List.map (U (norm x1).2 (norm x2).2)) :=
  NormalizedSolver.Solve_eq norm S U x1 x2 [] h1 h2 hc hN

/-- C5, on the translation instance: the raw solver finds `(0, 0)` on the
normalized points, and the adapter returns it moved by `T2 - T1 = (10, 20)`. -/
theorem C5_adapter_unnormalizes_solver_models_witness :
    Demo.kernel.x1.rows = 2 ∧ Demo.kernel.x2.rows = 2
    ∧ Demo.kernel.x1.cols = Demo.kernel.x2.cols
    ∧ Demo.translationSolver.MINIMUM_SAMPLES ≤ Demo.kernel.x1.cols
    ∧ Demo.translationSolver.Solve (Demo.centerOnFirst Demo.kernel.x1).1
        (Demo.centerOnFirst Demo.kernel.x2).1 [] = some [(0, 0)]
    ∧ NormalizedSolver.Solve Demo.centerOnFirst Demo.translationSolver
        Demo.unnormalizeTranslation Demo.kernel.x1 Demo.kernel.x2 [] = some [(10, 20)] :=
  ⟨by decide, by decide, by decide, by decide, by decide,
    (C5_adapter_unnormalizes_solver_models Demo.centerOnFirst Demo.translationSolver
      Demo.unnormalizeTranslation Demo.kernel.x1 Demo.kernel.x2
      (by decide) (by decide) (by decide) (by decide)).trans (by decide)⟩

/-- C6.  For a valid index `i`, `Kernel::Error(i, m)` is the error functor
applied to `m`, column `i` of `x1_` and column `i` of `x2_`, the point sets the
kernel was built with.  The result is the only effect: `Error` returns a scalar
and neither the kernel nor a model list is part of its result. -/
theorem C6_Error_uses_full_point_sets (E : ErrorFunctor α M D) (k : Kernel α) (i : Nat)
    (m : M) (h1 : i < k.x1.cols) (h2 : i < k.x2.cols) :
    Kernel.Error E k i m = E.Error m (k.x1.data.get ⟨i, h1⟩) (k.x2.data.get ⟨i, h2⟩) := by
  have e1 : k.x1.col i = k.x1.data.get ⟨i, h1⟩ := by
    have h1' : i < k.x1.data.length := h1
    simp [Mat.col, List.getD, List.getElem?_eq_getElem, h1']
  have e2 : k.x2.col i = k.x2.data.get ⟨i, h2⟩ := by
    have h2' : i < k.x2.data.length := h2
    simp [Mat.col, List.getD, List.getElem?_eq_getElem, h2']
  simp [Kernel.Error, e1, e2]

/-- C6, on the translation kernel: the third correspondence fits the model
`(10, 20)` exactly. -/
theorem C6_Error_uses_full_point_sets_witness :
    2 < Demo.kernel.x1.cols ∧ 2 < Demo.kernel.x2.cols
    ∧ Kernel.Error Demo.translationError Demo.kernel 2 (10, 20)
        = Demo.translationError.Error (10, 20) [4, 3] [14, 23] :=
  ⟨by decide, by decide,
    C6_Error_uses_full_point_sets Demo.translationError Demo.kernel 2 (10, 20)
      (by decide) (by decide)⟩

/-- C7.  For a kernel bound to two point sets of `N` columns each,
`NumSamples()` is `N`. -/
theorem C7_NumSamples_is_column_count (k : Kernel α) (N : Nat) (h1 : k.x1.cols = N)
    (_h2 : k.x2.cols = N) : Kernel.NumSamples k = N := by
  simpa [Kernel.NumSamples] using h1

/-- C7, on the translation kernel, which holds three correspondences. -/
theorem C7_NumSamples_is_column_count_witness :
    Demo.kernel.x1.cols = 3 ∧ Demo.kernel.x2.cols = 3 ∧ Kernel.NumSamples Demo.kernel = 3 :=
  ⟨by decide, by decide,
    C7_NumSamples_is_column_count Demo.kernel 3 (by decide) (by decide)⟩

/-- C8.  `Kernel<S, ...>` and `NormalizedSolver<S, ...>` both expose the two
enumerators of `S`, and so does a kernel built over the adapter. -/
theorem C8_enumerators_inherited (norm : Mat α → Mat α × T) (S : Solver α M)
    (U : T → T → M → M) :
    Kernel.MINIMUM_SAMPLES S = S.MINIMUM_SAMPLES
    ∧ Kernel.MAX_MODELS S = S.MAX_MODELS
    ∧ (NormalizedSolver norm S U).MINIMUM_SAMPLES = S.MINIMUM_SAMPLES
    ∧ (NormalizedSolver norm S U).MAX_MODELS = S.MAX_MODELS
    ∧ Kernel.MINIMUM_SAMPLES (NormalizedSolver norm S U) = S.MINIMUM_SAMPLES
    ∧ Kernel.MAX_MODELS (NormalizedSolver norm S U) = S.MAX_MODELS :=
  ⟨rfl, rfl, rfl, rfl, rfl, rfl⟩

end KernelClaims

/-! ## The five-point solver -/

/-- C9.  For every pair of point sets, `FivePointsRelativePose` returns the list
it was given followed by at most 10 candidates, one for each real root of the
polynomial in `z`; when the polynomial has no real root, it returns the list
unchanged. -/
theorem C9_five_point_appends_at_most_ten {Mat3 : Type} (P : FivePointStages Mat3)
    (x1 x2 : Mat ℝ) (E : List Mat3) :
    ∃ new : List Mat3, FivePointsRelativePose P x1 x2 E = E ++ new ∧ new.length ≤ 10
      ∧ new = (realRoots (P.polynomial x1 x2).val).map (P.candidate x1 x2)
      ∧ (∀ r ∈ realRoots (P.polynomial x1 x2).val, evalPoly (P.polynomial x1 x2).val r = 0)
      ∧ ((∀ z : ℝ, evalPoly (P.polynomial x1 x2).val z ≠ 0) → new = []) := by
  obtain ⟨hroot, _, _, hlen⟩ := realRoots_spec (P.polynomial x1 x2).val
  have h11 : (P.polynomial x1 x2).val.length = 11 := (P.polynomial x1 x2).property
  have hne : (P.polynomial x1 x2).val ≠ [] := by
    intro h0
    rw [h0] at h11
    simp at h11
  refine ⟨(realRoots (P.polynomial x1 x2).val).map (P.candidate x1 x2), rfl, ?_, rfl, hroot, ?_⟩
  · have := hlen hne
    simp only [List.length_map]
    omega
  · intro hno
    cases hr : realRoots (P.polynomial x1 x2).val with
    | nil => simp
    | cons r rs => exact absurd (hroot r (by simp [hr])) (hno r)

/-- C9, on a polynomial without real root, `z^10 + 2`: the list comes back as it
was given. -/
theorem C9_five_point_appends_at_most_ten_witness :
    (∀ z : ℝ, evalPoly (Demo.stages.polynomial Demo.points1 Demo.points2).val z ≠ 0)
    ∧ FivePointsRelativePose Demo.stages Demo.points1 Demo.points2 [7] = [7] := by
  have hno : ∀ z : ℝ, evalPoly (Demo.stages.polynomial Demo.points1 Demo.points2).val z ≠ 0 := by
    intro z
    simp only [Demo.stages, Demo.points1, Demo.points2, Demo.firstNormSq, evalPoly]
    have h5 : 0 ≤ (z * (z * (z * (z * z)))) ^ 2 := sq_nonneg _
    intro h
    nlinarith [h, h5]
  obtain ⟨new, hrun, _, _, _, hnil⟩ :=
    C9_five_point_appends_at_most_ten Demo.stages Demo.points1 Demo.points2 [7]
  refine ⟨hno, ?_⟩
  rw [hrun, hnil hno, List.append_nil]

/-! ## The squared Euclidean distance -/

/-- C10.  For two sequences with at least `n` elements each, `L2_Simple` returns
the sum over `i < n` of `(a[i] - b[i]) * (a[i] - b[i])`, the difference and the
sum being taken in the accumulator type; for `n = 0` it returns 0. -/
theorem C10_L2_Simple_is_squared_distance {T A : Type} [AddCommMonoid A] [Mul A]
    (sub : T → T → A) (a b : List T) (n : Nat) (ha : n ≤ a.length) (hb : n ≤ b.length) :
    L2_Simple.call sub a b n
        = some (∑ i : Fin n,
            sub (a.get ⟨i.1, lt_of_lt_of_le i.2 ha⟩) (b.get ⟨i.1, lt_of_lt_of_le i.2 hb⟩)
              * sub (a.get ⟨i.1, lt_of_lt_of_le i.2 ha⟩) (b.get ⟨i.1, lt_of_lt_of_le i.2 hb⟩))
    ∧ L2_Simple.call sub a b 0 = some 0 := by
  refine ⟨?_, rfl⟩
  rw [L2_Simple.call, L2_Simple.loop_eq sub n a b 0 ha hb, zero_add]

/-- C10, on two integer sequences of length three and `n = 2`:
`(1 - 3)^2 + (2 - 2)^2 = 4`. -/
theorem C10_L2_Simple_is_squared_distance_witness :
    2 ≤ [(1 : Int), 2, 3].length ∧ 2 ≤ [(3 : Int), 2, 1].length
    ∧ L2_Simple.call (fun x y : Int => x - y) [1, 2, 3] [3, 2, 1] 2 = some 4 :=
  ⟨by decide, by decide,
    (C10_L2_Simple_is_squared_distance (fun x y : Int => x - y) [1, 2, 3] [3, 2, 1] 2
      (by decide) (by decide)).1.trans (by simp [Fin.sum_univ_succ])⟩

/-- C11.  Over exact arithmetic, for two sequences with at least `n` elements
each, the generic `L2_Vectorized` returns what `L2_Simple` returns, the sum over
`i < n` of the squared differences, for every `n`: the 4-wide loop and the tail
loop together add each index below `n` once. -/
theorem C11_L2_Vectorized_equals_L2_Simple {T A : Type} [AddCommMonoid A] [Mul A]
    (sub : T → T → A) (a b : List T) (n : Nat) (ha : n ≤ a.length) (hb : n ≤ b.length) :
    L2_Vectorized.call sub a b n = L2_Simple.call sub a b n
    ∧ L2_Vectorized.call sub a b n
        = some (∑ i : Fin n,
            sub (a.get ⟨i.1, lt_of_lt_of_le i.2 ha⟩) (b.get ⟨i.1, lt_of_lt_of_le i.2 hb⟩)
              * sub (a.get ⟨i.1, lt_of_lt_of_le i.2 ha⟩) (b.get ⟨i.1, lt_of_lt_of_le i.2 hb⟩)) := by
  have hsimple := L2_Simple.loop_eq sub n a b 0 ha hb
  rw [zero_add] at hsimple
  have hvec : L2_Vectorized.call sub a b n = L2_Simple.call sub a b n := by
    obtain ⟨pos, result, hrun, heq⟩ := L2_Vectorized.mainLoop_eq sub a b n ha hb n 0 0 (by omega)
    simp only [L2_Vectorized.call, hrun]
    rw [L2_Vectorized.tailLoop_eq sub a b n ha hb n pos result (by omega), heq]
    simp [L2_Simple.call]
  exact ⟨hvec, hvec.trans hsimple⟩

/-- C11, on two integer sequences of length seven and `n = 6`: one group of four
and a tail of two, `1 + 4 + 9 + 16 + 25 + 36 = 91`. -/
theorem C11_L2_Vectorized_equals_L2_Simple_witness :
    6 ≤ [(1 : Int), 2, 3, 4, 5, 6, 7].length ∧ 6 ≤ [(0 : Int), 0, 0, 0, 0, 0, 0].length
    ∧ L2_Simple.call (fun x y : Int => x - y) [1, 2, 3, 4, 5, 6, 7] [0, 0, 0, 0, 0, 0, 0] 6
        = some 91
    ∧ L2_Vectorized.call (fun x y : Int => x - y) [1, 2, 3, 4, 5, 6, 7] [0, 0, 0, 0, 0, 0, 0] 6
        = some 91 :=
  ⟨by decide, by decide, by decide,
    (C11_L2_Vectorized_equals_L2_Simple (fun x y : Int => x - y) [1, 2, 3, 4, 5, 6, 7]
      [0, 0, 0, 0, 0, 0, 0] 6 (by decide) (by decide)).1.trans (by decide)⟩

/-- C12, as stated, fails.  For the one-element arrays `[1]` and `[0]` and size
1, which is no multiple of 4, `l2_sse` and `L2_Vectorized<float>` return 0,
while the squared distance, which `L2_Simple` and the generic `L2_Vectorized`
return, is 1. -/
theorem C12_l2_sse_zero_on_size_one :
    optim_ss2.l2_sse [(1 : Int)] [0] 1 = some 0
    ∧ L2_Vectorized.callFloat [(1 : Int)] [0] 1 = some 0
    ∧ L2_Simple.call (fun x y : Int => x - y) [1] [0] 1 = some 1
    ∧ L2_Vectorized.call (fun x y : Int => x - y) [1] [0] 1 = some 1
    ∧ ¬ (∀ (b1 b2 : List Int) (n : Nat), n ≤ b1.length → n ≤ b2.length →
          optim_ss2.l2_sse b1 b2 n = L2_Simple.call (fun x y : Int => x - y) b1 b2 n) := by
  refine ⟨by decide, by decide, by decide, by decide, fun h => ?_⟩
  have h1 := h [1] [0] 1 (by decide) (by decide)
  exact absurd h1 (by decide)

/-- C12, amended.  Over exact arithmetic, for two arrays with at least `n`
elements each, `l2_sse`, and with it `L2_Vectorized<float>`, returns the sum over
`i < n` of the squared differences, the value of `L2_Simple`, when `n` is a
multiple of 4, and returns 0 when it is not. -/
theorem C12_l2_sse_on_multiples_of_four {A : Type} [AddCommMonoid A] [Mul A] [Sub A]
    (b1 b2 : List A) (n : Nat) (h1 : n ≤ b1.length) (h2 : n ≤ b2.length) :
    optim_ss2.l2_sse b1 b2 n
        = (if n % 4 = 0 then
            some (∑ i : Fin n,
              (b1.get ⟨i.1, lt_of_lt_of_le i.2 h1⟩ - b2.get ⟨i.1, lt_of_lt_of_le i.2 h2⟩)
                * (b1.get ⟨i.1, lt_of_lt_of_le i.2 h1⟩ - b2.get ⟨i.1, lt_of_lt_of_le i.2 h2⟩))
          else some 0)
    ∧ L2_Vectorized.callFloat b1 b2 n = optim_ss2.l2_sse b1 b2 n
    ∧ (n % 4 = 0 →
        optim_ss2.l2_sse b1 b2 n = L2_Simple.call (fun x y => x - y) b1 b2 n) := by
  have hsimple := L2_Simple.loop_eq (fun x y : A => x - y) n b1 b2 0 h1 h2
  rw [zero_add] at hsimple
  have hmul : n % 4 = 0 →
      optim_ss2.l2_sse b1 b2 n = L2_Simple.call (fun x y => x - y) b1 b2 n := by
    intro hmod
    obtain ⟨res, hrun, heq⟩ :=
      optim_ss2.sseLoop_eq b1 b2 n h1 h2 n 0 (0, 0, 0, 0) (by simpa using hmod) (by omega)
    simp only [optim_ss2.l2_sse, if_pos hmod, hrun]
    rw [← heq]
    simp [L2_Simple.call]
  refine ⟨?_, rfl, hmul⟩
  by_cases hmod : n % 4 = 0
  · rw [if_pos hmod, hmul hmod]
    exact hsimple
  · simp [optim_ss2.l2_sse, hmod]

/-- C12 amended, on two integer arrays of length five: size 4 gives
`1 + 4 + 9 + 16 = 30`. -/
theorem C12_l2_sse_on_multiples_of_four_witness :
    4 ≤ [(1 : Int), 2, 3, 4, 5].length ∧ 4 ≤ [(0 : Int), 0, 0, 0, 0].length
    ∧ optim_ss2.l2_sse [(1 : Int), 2, 3, 4, 5] [0, 0, 0, 0, 0] 4 = some 30
    ∧ L2_Simple.call (fun x y : Int => x - y) [1, 2, 3, 4, 5] [0, 0, 0, 0, 0] 4 = some 30 :=
  ⟨by decide, by decide, by decide,
    ((C12_l2_sse_on_multiples_of_four [(1 : Int), 2, 3, 4, 5] [0, 0, 0, 0, 0] 4
      (by decide) (by decide)).2.2 (by decide)).symm.trans (by decide)⟩

/-! ## Decorated matches -/

/-- C13.  `operator<` is not the lexicographical ordering.  The match with
coordinates `(0, 5, 0, 0)` precedes the one with `(1, 0, 0, 0)` lexicographically,
its `x1` being smaller, yet `operator<` answers `false`, because after finding
`m1.x1 < m2.x1` it returns `m1.y1 < m2.y1`.  Likewise `(0, 0, 0, 0)` precedes
`(0, 1, 0, 0)`, yet `operator<` answers `false`: with equal `x1` it returns
`m1.x1 < m2.x1`. -/
theorem C13_operatorLess_not_lexicographical :
    ((0 : Int) < 1
      ∧ IndMatchDecoratorStruct.lexicographicalLess
          ({ x1 := 0, y1 := 5, x2 := 0, y2 := 0, index := { _i := 0, _j := 0 } } :
            IndMatchDecoratorStruct Int)
          { x1 := 1, y1 := 0, x2 := 0, y2 := 0, index := { _i := 1, _j := 1 } } = true
      ∧ IndMatchDecoratorStruct.operatorLess
          ({ x1 := 0, y1 := 5, x2 := 0, y2 := 0, index := { _i := 0, _j := 0 } } :
            IndMatchDecoratorStruct Int)
          { x1 := 1, y1 := 0, x2 := 0, y2 := 0, index := { _i := 1, _j := 1 } } = false)
    ∧ (IndMatchDecoratorStruct.lexicographicalLess
          ({ x1 := 0, y1 := 0, x2 := 0, y2 := 0, index := { _i := 0, _j := 0 } } :
            IndMatchDecoratorStruct Int)
          { x1 := 0, y1 := 1, x2 := 0, y2 := 0, index := { _i := 1, _j := 1 } } = true
      ∧ IndMatchDecoratorStruct.operatorLess
          ({ x1 := 0, y1 := 0, x2 := 0, y2 := 0, index := { _i := 0, _j := 0 } } :
            IndMatchDecoratorStruct Int)
          { x1 := 0, y1 := 1, x2 := 0, y2 := 0, index := { _i := 1, _j := 1 } } = false) := by
  decide

/-- C14.  For a decorator built from a list of matches and two feature sets,
whatever the shape of the tree behind the set, the vector `getDeduplicated`
leaves holds no two matches with the same left coordinates `(x1, y1)`, holds
only matches of the input list, and is no longer than the input list. -/
theorem C14_getDeduplicated_removes_duplicates {T : Type} [LinearOrder T]
    (shape : Nat → Nat → Nat → Nat) (vec_matches : List IndMatch)
    (leftFeat rightFeat : List (T × T)) (D : IndMatchDecorator T) (vec : List IndMatch)
    (hD : IndMatchDecorator.create vec_matches leftFeat rightFeat = some D) :
    (∀ (p q : Nat) (hp : p < (IndMatchDecorator.getDeduplicated shape D vec).2.2.length)
        (hq : q < (IndMatchDecorator.getDeduplicated shape D vec).2.2.length), p ≠ q →
        ∃ c1 c2 : T × T,
          leftFeat[((IndMatchDecorator.getDeduplicated shape D vec).2.2.get ⟨p, hp⟩)._i]? = some c1
          ∧ leftFeat[((IndMatchDecorator.getDeduplicated shape D vec).2.2.get ⟨q, hq⟩)._i]?
              = some c2
          ∧ c1 ≠ c2)
    ∧ (∀ m ∈ (IndMatchDecorator.getDeduplicated shape D vec).2.2, m ∈ vec_matches)
    ∧ (IndMatchDecorator.getDeduplicated shape D vec).2.2.length ≤ vec_matches.length := by
  unfold IndMatchDecorator.create at hD
  split at hD
  · next ds hds =>
    cases hD
    obtain ⟨hmap, hfeat⟩ := IndMatchDecorator.decorate_spec leftFeat rightFeat vec_matches ds hds
    obtain ⟨hpw, hmem, hlen⟩ := StdSet.insertRange_spec
      (IndMatchDecoratorStruct.operatorLess (T := T)) (fun a b => a.y1 < b.y1)
      (fun a b h => (IndMatchDecoratorStruct.y1_lt_of_operatorLess a b h).1)
      (fun a b c h1 h2 => lt_trans h1 h2) shape ds 0 [] List.Pairwise.nil
    have hmem' : ∀ x ∈ StdSet.ofRange IndMatchDecoratorStruct.operatorLess shape ds, x ∈ ds := by
      intro x hx
      rcases hmem x hx with h | h
      · simp at h
      · exact h
    have hlen' : (StdSet.ofRange IndMatchDecoratorStruct.operatorLess shape ds).length
        ≤ vec_matches.length := by
      have : ds.length = vec_matches.length := by rw [← hmap, List.length_map]
      simp only [List.length_nil, zero_add] at hlen
      exact this ▸ hlen
    simp only [IndMatchDecorator.getDeduplicated, List.length_map, List.get_eq_getElem,
      List.getElem_map, List.mem_map]
    refine ⟨?_, ?_, hlen'⟩
    · intro p q hp hq hpq
      have hdp := (hfeat _ (hmem' _ (List.getElem_mem hp))).1
      have hdq := (hfeat _ (hmem' _ (List.getElem_mem hq))).1
      refine ⟨_, _, hdp, hdq, ?_⟩
      have hpw' := List.pairwise_iff_getElem.mp hpw
      intro heq
      have hy := congrArg Prod.snd heq
      simp only at hy
      rcases Nat.lt_or_gt_of_ne hpq with h | h
      · exact absurd hy (ne_of_lt (hpw' p q hp hq h))
      · exact absurd hy.symm (ne_of_lt (hpw' q p hq hp h))
    · rintro m ⟨d, hd, rfl⟩
      rw [← hmap]
      exact List.mem_map.mpr ⟨d, hmem' d hd, rfl⟩
  · exact absurd hD (by simp)

/-- C14, on five matches of which three share the left coordinates `(0, 0)`:
the first of the three and the two other matches are left. -/
theorem C14_getDeduplicated_removes_duplicates_witness :
    IndMatchDecorator.create Demo.vec_matches Demo.leftFeat Demo.rightFeat = some Demo.decorator
    ∧ (IndMatchDecorator.getDeduplicated Demo.shape Demo.decorator []).2.2
        = [{ _i := 0, _j := 0 }, { _i := 1, _j := 1 }, { _i := 2, _j := 2 }]
    ∧ (∀ m ∈ (IndMatchDecorator.getDeduplicated Demo.shape Demo.decorator []).2.2,
        m ∈ Demo.vec_matches)
    ∧ (IndMatchDecorator.getDeduplicated Demo.shape Demo.decorator []).2.2.length
        ≤ Demo.vec_matches.length :=
  ⟨by decide, by decide,
    (C14_getDeduplicated_removes_duplicates Demo.shape Demo.vec_matches Demo.leftFeat
      Demo.rightFeat Demo.decorator [] (by decide)).2⟩

end aliceVision
